import Mathlib

/-!
# TravelinMan: path graph, reachability, path selection and race resolution

A shallow embedding of the game logic of `src/public/game.js`:

* the edge generation loop (`edges`, lines 68-81),
* `nextSelectable` (lines 115-119),
* the `pointerdown` handler of the player path (lines 129-156),
* `enemyRandomPath` (lines 171-183),
* the outcome branch of `animateRace` (lines 228-234),
* `moveMarker` (lines 247-261).

Node indices are natural numbers and an edge `[a, b]` is a pair.  Coordinates and
the progress value `t` are rational numbers: `moveMarker` computes with them
exactly, `moveMarker64` rounds every operation to the nearest double as the source
does.  A call of `Math.random()` is a
value of type `Draw`, a rational `num / den` in `[0, 1)`; a random source is a stream of
draws together with the position of the next unread draw.  Loops without a
static bound carry a fuel argument and return `none` when it runs out.
Rendering, the DOM and the raycast are outside the model: a pointer event is
the node index it hits, if any.
-/

namespace TravelinMan

/-! ## Configuration and data model -/

/-- Source constant `CONNECTIONS` (line 10). -/
def CONNECTIONS : Nat := 3

/-- Source constant `POINT_COUNT` (line 9). -/
def POINT_COUNT : Nat := 8

/-- The `type` field of a node: `'start'`, `'mid'` or `'end'`. -/
inductive NodeType where
  | startNode
  | midNode
  | endNode
  deriving DecidableEq, Repr

/-- A node object `{ x, y, type }`. -/
structure Node where
  x : ℚ
  y : ℚ
  type : NodeType
  deriving DecidableEq

/-- An edge `[a, b]` of the global `edges` array. -/
abbrev Edge := Nat × Nat

/-- Source constant `startIdx` (line 65). -/
def startIdx : Nat := 0

/-- Source constant `endIdx = nodes.length - 1` (line 65); the node array always
holds the start and the end node, so the subtraction does not go below zero. -/
def endIdx (nodes : List Node) : Nat := nodes.length - 1

/-- One result of `Math.random()`: the rational number `num / den` in `[0, 1)`. -/
structure Draw where
  num : Nat
  den : Nat
  lt : num < den

/-- The value of a draw as a rational number. -/
def Draw.val (r : Draw) : ℚ := (r.num : ℚ) / (r.den : ℚ)

/-- The index `Math.floor(Math.random() * n)` for the draw `r`: the floor of
`(num / den) * n` is the integer quotient of `num * n` by `den`
(`randFloor_eq_floor` below). -/
def randFloor (r : Draw) (n : Nat) : Nat := r.num * n / r.den

/-! ## Edge generation (lines 68-81) -/

/-- The loop `while (targets.length < CONNECTIONS) { ... }` for node `i` among `n`
nodes, reading the random source `rng` from position `k`.  Returns the targets
and the position of the next unread draw. -/
def drawTargets (rng : Nat → Draw) (n i : Nat) : Nat → List Nat → Nat → Option (List Nat × Nat)
  | 0, targets, k => if targets.length < CONNECTIONS then none else some (targets, k)
  | fuel + 1, targets, k =>
    if targets.length < CONNECTIONS then
      let j := randFloor (rng k) n
      if j ≠ i ∧ ¬ targets.contains j then drawTargets rng n i fuel (targets ++ [j]) (k + 1)
      else drawTargets rng n i fuel targets (k + 1)
    else some (targets, k)

/-- The test `edges.find(e => (e[0] === i && e[1] === j) || (e[0] === j && e[1] === i))`
as a boolean: some edge already joins `i` and `j`. -/
def hasEdge (edges : List Edge) (i j : Nat) : Bool :=
  edges.any fun e => (e.1 == i && e.2 == j) || (e.1 == j && e.2 == i)

/-- The loop `for (const j of targets) { if (!edges.find(...)) edges.push([i, j]); }`. -/
def addEdges (i : Nat) (targets : List Nat) (edges : List Edge) : List Edge :=
  targets.foldl (fun es j => if hasEdge es i j then es else es ++ [(i, j)]) edges

/-- The outer loop `for (let i = 0; i < nodes.length; ++i)` with `remaining`
iterations left, the first of them for node `i`. -/
def edgeLoop (rng : Nat → Draw) (n fuel : Nat) : Nat → Nat → List Edge → Nat → Option (List Edge)
  | 0, _, edges, _ => some edges
  | remaining + 1, i, edges, k =>
    match drawTargets rng n i fuel [] k with
    | none => none
    | some (targets, k') => edgeLoop rng n fuel remaining (i + 1) (addEdges i targets edges) k'

/-- The edge list generated for `n` nodes from the random source `rng`; every
`while` loop may read at most `fuel` draws. -/
def generateEdges (rng : Nat → Draw) (n fuel : Nat) : Option (List Edge) :=
  edgeLoop rng n fuel n 0 [] 0

/-! ## Reachability (lines 115-119) -/

/-- Source function `nextSelectable(current, pathSoFar)` over the edge list. -/
def nextSelectable (edges : List Edge) (current : Nat) (pathSoFar : List Nat) : List Nat :=
  ((edges.filter fun e => e.1 == current || e.2 == current).map
    fun e => if e.1 == current then e.2 else e.1).filter fun idx => !pathSoFar.contains idx

/-- Two node indices are joined by an edge of the list, in either orientation. -/
def Joined (edges : List Edge) (a b : Nat) : Prop := (a, b) ∈ edges ∨ (b, a) ∈ edges

instance (edges : List Edge) (a b : Nat) : Decidable (Joined edges a b) := by
  unfold Joined; infer_instance

/-- Two edges join the same unordered pair of node indices. -/
def SameLink (e f : Edge) : Prop := (e.1 = f.1 ∧ e.2 = f.2) ∨ (e.1 = f.2 ∧ e.2 = f.1)

instance (e f : Edge) : Decidable (SameLink e f) := by
  unfold SameLink; infer_instance

/-! ## Player path selection (lines 111-156) -/

/-- The mutable globals of the selection phase: `playerPath`, `choosing`, `selectable`. -/
structure PlayerState where
  playerPath : List Nat
  choosing : Bool
  selectable : List Nat
  deriving DecidableEq, Repr

/-- The globals as initialised at lines 111-113. -/
def initialState (edges : List Edge) : PlayerState :=
  { playerPath := [startIdx]
    choosing := true
    selectable := nextSelectable edges startIdx [startIdx] }

/-- The `pointerdown` handler; `hit` is `intersects[0].object.userData.idx` when the
raycast hits a node mesh and `none` when `intersects` is empty. -/
def pointerdown (edges : List Edge) (endIdx : Nat) (s : PlayerState) (hit : Option Nat) :
    PlayerState :=
  if !s.choosing then s
  else
    match hit with
    | none => s
    | some idx =>
      if s.selectable.contains idx then
        if idx = endIdx then
          { playerPath := s.playerPath ++ [idx], choosing := false, selectable := s.selectable }
        else
          { playerPath := s.playerPath ++ [idx]
            choosing := s.choosing
            selectable := nextSelectable edges idx (s.playerPath ++ [idx]) }
      else s

/-- The state after a sequence of pointer events, starting from the initial globals. -/
def afterPicks (edges : List Edge) (endIdx : Nat) (hits : List (Option Nat)) : PlayerState :=
  hits.foldl (pointerdown edges endIdx) (initialState edges)

/-! ## Enemy path (lines 171-183) -/

/-- The loop `while (curr !== endIdx) { ... }` of `enemyRandomPath` on the state
`(path, curr)`, reading the random source from position `k`.  Returns the path at
loop exit and the position of the next unread draw. -/
def enemyLoop (edges : List Edge) (endIdx : Nat) (rng : Nat → Draw) :
    Nat → List Nat → Nat → Nat → Option (List Nat × Nat)
  | 0, _, _, _ => none
  | fuel + 1, path, curr, k =>
    if curr = endIdx then some (path, k)
    else
      let nexts := nextSelectable edges curr path
      if h : nexts.length = 0 then some (path, k)
      else
        let next := nexts.get ⟨randFloor (rng k) nexts.length,
          Nat.div_lt_of_lt_mul (Nat.mul_lt_mul_of_pos_right (rng k).lt (Nat.pos_of_ne_zero h))⟩
        if (path ++ [next]).length > 20 then some (path ++ [next], k + 1)
        else enemyLoop edges endIdx rng fuel (path ++ [next]) next (k + 1)

/-- Source function `enemyRandomPath()`; `fuel` bounds the number of attempts
(the source retries by unbounded recursion).  The loop of one attempt runs at
most 20 times, so 20 units of loop fuel are never used up. -/
def enemyRandomPath (edges : List Edge) (endIdx : Nat) (rng : Nat → Draw) :
    Nat → Nat → Option (List Nat)
  | 0, _ => none
  | fuel + 1, k =>
    match enemyLoop edges endIdx rng 20 [startIdx] startIdx k with
    | none => none
    | some (path, k') =>
      if path.getLast? ≠ some endIdx then enemyRandomPath edges endIdx rng fuel k'
      else some path

/-! ## Race outcome (lines 228-234) -/

/-- The text written to `messageEl` by the outcome branch of `animateRace`. -/
def raceOutcome (playerPath enemyPath : List Nat) : String :=
  if playerPath.length < enemyPath.length then "Player wins!"
  else if playerPath.length > enemyPath.length then "Enemy wins!"
  else "It\x27s a tie!"

/-! ## Marker interpolation (lines 247-261) -/

/-- A marker position `(x, y, z)` of the scene. -/
structure Vec3 where
  x : ℚ
  y : ℚ
  z : ℚ
  deriving DecidableEq

/-- Array access `arr[i]` for an integer `i`: `undefined` (here `none`) outside
the array. -/
def jsGet {α : Type} (arr : List α) (i : Int) : Option α :=
  if i < 0 then none else arr[i.toNat]?

/-- Lines 250-253 of `moveMarker` in exact arithmetic: the segment index `idx` and
the fraction `frac` for progress `t` on a path of `totalSegs` segments, after both
clamps. -/
def markerSegment (totalSegs : Int) (t : ℚ) : Int × ℚ :=
  let idx : Int := Rat.floor (t * totalSegs)
  let frac : ℚ := t * totalSegs - idx
  let s1 : Int × ℚ := if idx ≥ totalSegs then (totalSegs - 1, 1) else (idx, frac)
  if s1.1 < 0 then (0, 0) else s1

/-- The lookup `nodes[path[idx]]`, `undefined` (here `none`) when either index is
outside its array. -/
def nodeAt (nodes : List Node) (path : List Nat) (idx : Int) : Option Node :=
  (jsGet path idx).bind fun i => nodes[i]?

/-- Source function `moveMarker(marker, path, t)` in exact arithmetic: the new
`marker.position`, which is the old one when the function returns early.  The
source rounds every operation to a double; that is `moveMarker64` below. -/
def moveMarker (nodes : List Node) (marker : Vec3) (path : List Nat) (t : ℚ) : Vec3 :=
  let totalSegs : Int := (path.length : Int) - 1
  let idx := (markerSegment totalSegs t).1
  let frac := (markerSegment totalSegs t).2
  match nodeAt nodes path idx, nodeAt nodes path (idx + 1) with
  | some a, some b => { x := a.x + (b.x - a.x) * frac, y := 11 / 10, z := a.y + (b.y - a.y) * frac }
  | _, _ => marker

/-! ## Double precision arithmetic

The source computes coordinates and progress in IEEE 754 binary64 numbers.  A
finite double is the rational number it denotes; an operation is the exact
rational operation followed by `roundDouble`, rounding to nearest, ties to even,
with 53 significant bits and gradual underflow at `2 ^ (-1074)`.  Results of
magnitude `2 ^ 1024` and above (the infinities) and `NaN` are outside this
model; the statements below keep every operand within the map. -/

/-- The power `2 ^ k` for an integer exponent. -/
def pow2 (k : Int) : ℚ :=
  if 0 ≤ k then ((2 ^ k.toNat : Nat) : ℚ) else 1 / ((2 ^ (-k).toNat : Nat) : ℚ)

/-- The number of binary digits of `n`, computed with `fuel` halvings at most. -/
def bitLenAux : Nat → Nat → Nat
  | 0, _ => 0
  | fuel + 1, n => if n = 0 then 0 else bitLenAux fuel (n / 2) + 1

/-- The number of binary digits of `n`. -/
def bitLen (n : Nat) : Nat := bitLenAux n n

/-- The integer part of the binary logarithm of `|q|`, for `q ≠ 0`: the quotient of
a numerator of `a` digits by a denominator of `b` digits lies between
`2 ^ (a - b - 1)` and `2 ^ (a - b + 1)`. -/
def log2Floor (q : ℚ) : Int :=
  let k : Int := (bitLen q.num.natAbs : Int) - (bitLen q.den : Int)
  if pow2 k ≤ |q| then k else k - 1

/-- The nearest integer, a tie going to the even one. -/
def roundHalfEven (q : ℚ) : Int :=
  let f : Int := Rat.floor q
  let r : ℚ := q - f
  if r < 1 / 2 then f else if 1 / 2 < r then f + 1 else if f % 2 = 0 then f else f + 1

/-- The double nearest to the rational `q` (ties to even): a multiple of the unit
in the last place `2 ^ e`, where `e` is 52 below the binary exponent of `q` and
not below `-1074`. -/
def roundDouble (q : ℚ) : ℚ :=
  if q = 0 then 0
  else
    let e : Int := max (log2Floor q - 52) (-1074)
    (roundHalfEven (q / pow2 e) : ℚ) * pow2 e

/-- The rational `q` is a double. -/
def IsDouble (q : ℚ) : Prop := roundDouble q = q

instance (q : ℚ) : Decidable (IsDouble q) := by
  unfold IsDouble; infer_instance

/-- The sum `a + b` of two doubles, as a double. -/
def fadd (a b : ℚ) : ℚ := roundDouble (a + b)

/-- The difference `a - b` of two doubles, as a double. -/
def fsub (a b : ℚ) : ℚ := roundDouble (a - b)

/-- The product `a * b` of two doubles, as a double. -/
def fmul (a b : ℚ) : ℚ := roundDouble (a * b)

/-- The quotient `a / b` of two doubles, as a double. -/
def fdiv (a b : ℚ) : ℚ := roundDouble (a / b)

/-- A coordinate as the node generator places it: a double within the map, which
extends from `-MAP_SCALE/2` to `MAP_SCALE/2`. -/
def IsCoord (q : ℚ) : Prop := IsDouble q ∧ |q| ≤ 5

instance (q : ℚ) : Decidable (IsCoord q) := by
  unfold IsCoord; infer_instance

/-! ## Node generation (lines 47-63), in doubles -/

/-- Source constant `MAP_SCALE` (line 8). -/
def MAP_SCALE : ℚ := 10

/-- Source function `randOnEdge(side)`; `r` is the value of its call of
`Math.random()`.  Returns `(x, y)`. -/
def randOnEdge (side : Nat) (r : ℚ) : ℚ × ℚ :=
  let y := fsub (fmul r MAP_SCALE) (fdiv MAP_SCALE 2)
  let x := if side = 0 then fdiv (-MAP_SCALE) 2 else fdiv MAP_SCALE 2
  (x, y)

/-- Source function `randNode()`; `rx` and `ry` are the values of its two calls of
`Math.random()`, in the order of evaluation.  Returns `(x, y)`. -/
def randNode (rx ry : ℚ) : ℚ × ℚ :=
  (fsub (fmul rx (fsub MAP_SCALE 2)) (fdiv (fsub MAP_SCALE 2) 2),
    fsub (fmul ry (fsub MAP_SCALE 2)) (fdiv (fsub MAP_SCALE 2) 2))

/-- The array `nodes` as filled at lines 60-63, reading the random source `rng` from
position `k`: the start node, `POINT_COUNT` intermediate nodes, the end node. -/
def generateNodes (rng : Nat → Draw) (k : Nat) : List Node :=
  [⟨(randOnEdge 0 (rng k).val).1, (randOnEdge 0 (rng k).val).2, .startNode⟩] ++
    (List.range POINT_COUNT).map (fun i =>
      ⟨(randNode (rng (k + 1 + 2 * i)).val (rng (k + 2 + 2 * i)).val).1,
        (randNode (rng (k + 1 + 2 * i)).val (rng (k + 2 + 2 * i)).val).2, .midNode⟩) ++
    [⟨(randOnEdge 1 (rng (k + 1 + 2 * POINT_COUNT)).val).1,
      (randOnEdge 1 (rng (k + 1 + 2 * POINT_COUNT)).val).2, .endNode⟩]

/-! ## Marker interpolation (lines 247-261), in doubles -/

/-- Lines 250-253 of `moveMarker` in doubles: `idx` and `frac` after both clamps. -/
def markerSegment64 (totalSegs : Int) (t : ℚ) : Int × ℚ :=
  let idx : Int := Rat.floor (fmul t totalSegs)
  let frac : ℚ := fsub (fmul t totalSegs) idx
  let s1 : Int × ℚ := if idx ≥ totalSegs then (totalSegs - 1, 1) else (idx, frac)
  if s1.1 < 0 then (0, 0) else s1

/-- Source function `moveMarker(marker, path, t)` in doubles: the new
`marker.position`, which is the old one when the function returns early. -/
def moveMarker64 (nodes : List Node) (marker : Vec3) (path : List Nat) (t : ℚ) : Vec3 :=
  let totalSegs : Int := (path.length : Int) - 1
  let idx := (markerSegment64 totalSegs t).1
  let frac := (markerSegment64 totalSegs t).2
  match nodeAt nodes path idx, nodeAt nodes path (idx + 1) with
  | some a, some b =>
    { x := fadd a.x (fmul (fsub b.x a.x) frac)
      y := roundDouble (11 / 10)
      z := fadd a.y (fmul (fsub b.y a.y) frac) }
  | _, _ => marker

/-! ## Concrete inputs -/

/-- The nodes `Start(0,0), A(1,0), End(2,0)` of the end-to-end scenarios. -/
def scenarioNodes : List Node :=
  [⟨0, 0, .startNode⟩, ⟨1, 0, .midNode⟩, ⟨2, 0, .endNode⟩]

/-- The edges `(0,1), (1,2)` followed by the extra edge `(0,2)`. -/
def scenarioEdges : List Edge := [(0, 1), (1, 2), (0, 2)]

/-- The same three edges with the edge `(0,2)` in front. -/
def shortcutFirstEdges : List Edge := [(0, 2), (0, 1), (1, 2)]

/-- The random source whose every draw is `0`: `Math.floor(0 * n)` is `0`, the
first candidate. -/
def firstCandidate : Nat → Draw := fun _ => ⟨0, 1, Nat.zero_lt_one⟩

/-- The random source whose `k`-th draw is `(k mod n) / n`, so that
`Math.floor(Math.random() * n)` runs through `0, 1, ..., n - 1` again and again. -/
def cycleSource (n : Nat) : Nat → Draw := fun k =>
  ⟨k % (n + 1), n + 1, Nat.mod_lt k (Nat.succ_pos n)⟩

/-- The edge list that the generation loop produces for 10 nodes from `cycleSource 9`. -/
def cycleEdges : List Edge :=
  [(0, 1), (0, 2), (0, 3), (1, 4), (1, 5), (1, 6), (2, 7), (2, 8), (2, 9), (3, 1), (3, 2),
    (4, 3), (4, 5), (4, 6), (5, 7), (5, 8), (5, 9), (6, 0), (6, 2), (7, 3), (7, 4), (8, 6),
    (8, 7), (8, 9), (9, 0), (9, 1)]

/-- A run of the program: draw 0 is the terrain seed, draws 1 to 18 place the nodes
(draw 3 is the `y` of node 1 and draw 18 the `y` of the end node, both multiples of
`2 ^ (-52)`; the others are `k / 32`), and from draw 19 on
`Math.floor(Math.random() * 10)` runs through `0, 1, ..., 9` again and again. -/
def roundSource : Nat → Draw := fun k =>
  if k = 3 then ⟨3002399751580330, 4503599627370496, by decide⟩
  else if k = 18 then ⟨900719925474099, 4503599627370496, by decide⟩
  else if h : k < 19 then ⟨k, 32, by omega⟩
  else ⟨26 * ((k - 19) % 10) + 13, 256, by omega⟩

/-- The nodes of the run `roundSource`. -/
def roundNodes : List Node := generateNodes roundSource 1

/-! ## Predicates used in the statements -/

/-- An edge list without self-loops in which no two entries join the same unordered
pair of node indices. -/
def EdgesOK (edges : List Edge) : Prop :=
  (∀ e ∈ edges, e.1 ≠ e.2) ∧ edges.Pairwise fun e f => ¬ SameLink e f

/-- A walk from `startIdx` that currently stands on `curr`: it ends in `curr`, begins
with `startIdx`, repeats no node and follows edges. -/
structure IsWalk (edges : List Edge) (path : List Nat) (curr : Nat) : Prop where
  last : path.getLast? = some curr
  first : path.head? = some startIdx
  nodup : path.Nodup
  chain : path.Chain' (Joined edges)

/-- The invariant of the selection phase: `playerPath` is a walk from `startIdx`
standing on some node `c`; while `choosing`, every member of `selectable` is a
legal next node of that walk; once `choosing` is false, the walk stands on `endIdx`. -/
def PlayerInv (edges : List Edge) (endIdx : Nat) (s : PlayerState) : Prop :=
  ∃ c, IsWalk edges s.playerPath c ∧
    (s.choosing = true → ∀ n ∈ s.selectable, n ∈ nextSelectable edges c s.playerPath) ∧
    (s.choosing = false → c = endIdx)

/-! ## Properties of the random index and of reachability -/

/-- The index `Math.floor(Math.random() * n)` is a valid index of an array of
length `n > 0`. -/
theorem randFloor_lt (r : Draw) {n : Nat} (h : 0 < n) : randFloor r n < n :=
  Nat.div_lt_of_lt_mul (Nat.mul_lt_mul_of_pos_right r.lt h)

/-- The integer quotient used by `randFloor` is the floor of the rational product. -/
theorem randFloor_eq_floor (r : Draw) (n : Nat) :
    (randFloor r n : Int) = Int.floor (r.val * n) := by
  have hd : (0 : ℚ) < r.den := by exact_mod_cast Nat.lt_of_le_of_lt (Nat.zero_le _) r.lt
  unfold randFloor Draw.val
  rw [div_mul_eq_mul_div, ← Nat.cast_mul, ← Nat.floor_div_eq_div (α := ℚ)]
  rw [Int.natCast_floor_eq_floor (by positivity)]

/-- Membership in `nextSelectable`: the other endpoint of an edge that contains
`current`, and not in `pathSoFar`. -/
theorem mem_nextSelectable {edges : List Edge} {current : Nat} {pathSoFar : List Nat} {n : Nat} :
    n ∈ nextSelectable edges current pathSoFar ↔
      (∃ e ∈ edges, (e.1 = current ∨ e.2 = current) ∧ (if e.1 = current then e.2 else e.1) = n) ∧
        n ∉ pathSoFar := by
  simp [nextSelectable, List.mem_filter, List.mem_map, and_assoc]

theorem joined_of_mem_nextSelectable {edges : List Edge} {current : Nat} {pathSoFar : List Nat}
    {n : Nat} (h : n ∈ nextSelectable edges current pathSoFar) : Joined edges current n := by
  obtain ⟨⟨⟨a, b⟩, he, hc, hn⟩, -⟩ := mem_nextSelectable.1 h
  have hn' : (if a = current then b else a) = n := hn
  have hc' : a = current ∨ b = current := hc
  by_cases h1 : a = current
  · rw [if_pos h1] at hn'
    subst h1; subst hn'
    exact Or.inl he
  · rw [if_neg h1] at hn'
    have h2 : b = current := hc'.resolve_left h1
    subst h2; subst hn'
    exact Or.inr he

theorem not_mem_of_mem_nextSelectable {edges : List Edge} {current : Nat} {pathSoFar : List Nat}
    {n : Nat} (h : n ∈ nextSelectable edges current pathSoFar) : n ∉ pathSoFar :=
  (mem_nextSelectable.1 h).2

/-- C2: on an edge list without self-loops, `nextSelectable current visited` contains
neither `current` nor any member of `visited`. -/
theorem nextSelectable_excludes (edges : List Edge) (current : Nat) (visited : List Nat)
    (hloop : ∀ e ∈ edges, e.1 ≠ e.2) :
    current ∉ nextSelectable edges current visited ∧
      ∀ v ∈ visited, v ∉ nextSelectable edges current visited := by
  refine ⟨fun h => ?_, fun v hv h => not_mem_of_mem_nextSelectable h hv⟩
  obtain ⟨⟨⟨a, b⟩, he, hc, hn⟩, -⟩ := mem_nextSelectable.1 h
  have hab : a ≠ b := hloop _ he
  have hn' : (if a = current then b else a) = current := hn
  by_cases h1 : a = current
  · rw [if_pos h1] at hn'
    exact hab (h1.trans hn'.symm)
  · rw [if_neg h1] at hn'
    exact h1 hn'

theorem nextSelectable_excludes_witness :
    (∀ e ∈ [((0 : Nat), (1 : Nat)), (1, 2), (0, 2)], e.1 ≠ e.2) ∧
      (1 ∉ nextSelectable [(0, 1), (1, 2), (0, 2)] 1 [0] ∧
        ∀ v ∈ [0], v ∉ nextSelectable [(0, 1), (1, 2), (0, 2)] 1 [0]) :=
  ⟨by decide, nextSelectable_excludes [(0, 1), (1, 2), (0, 2)] 1 [0] (by decide)⟩

/-! ## Player path selection: ignored picks -/

/-- C4: a pick of a node that is not in `selectable`, or a pick when `choosing` is
false, leaves `playerPath`, `choosing` and `selectable` unchanged. -/
theorem pointerdown_ignored (edges : List Edge) (endIdx : Nat) (s : PlayerState) (n : Nat)
    (h : n ∉ s.selectable ∨ s.choosing = false) :
    (pointerdown edges endIdx s (some n)).playerPath = s.playerPath ∧
      (pointerdown edges endIdx s (some n)).choosing = s.choosing ∧
      (pointerdown edges endIdx s (some n)).selectable = s.selectable := by
  have key : pointerdown edges endIdx s (some n) = s := by
    unfold pointerdown
    rcases h with h | h
    · by_cases hc : s.choosing = true <;> simp [hc, h]
    · simp [h]
  rw [key]
  exact ⟨rfl, rfl, rfl⟩

theorem pointerdown_ignored_witness :
    ((2 : Nat) ∉ (PlayerState.mk [0, 1] true [3]).selectable ∨
        (PlayerState.mk [0, 1] true [3]).choosing = false) ∧
      ((pointerdown [(0, 1), (1, 3)] 3 (PlayerState.mk [0, 1] true [3]) (some 2)).playerPath
          = [0, 1] ∧
        (pointerdown [(0, 1), (1, 3)] 3 (PlayerState.mk [0, 1] true [3]) (some 2)).choosing
          = true ∧
        (pointerdown [(0, 1), (1, 3)] 3 (PlayerState.mk [0, 1] true [3]) (some 2)).selectable
          = [3]) :=
  ⟨by decide, pointerdown_ignored [(0, 1), (1, 3)] 3 (PlayerState.mk [0, 1] true [3]) 2
    (by decide)⟩

/-! ## Race outcome -/

/-- C6: the outcome is the three-way comparison of the two path lengths and of
nothing else: it is unchanged when both paths are replaced by any paths of the
same lengths (here lists of zeros). -/
theorem raceOutcome_three_way (playerPath enemyPath : List Nat) :
    (raceOutcome playerPath enemyPath = "Player wins!" ↔ playerPath.length < enemyPath.length) ∧
      (raceOutcome playerPath enemyPath = "Enemy wins!" ↔
        playerPath.length > enemyPath.length) ∧
      (raceOutcome playerPath enemyPath = "It\x27s a tie!" ↔
        playerPath.length = enemyPath.length) ∧
      raceOutcome playerPath enemyPath =
        raceOutcome (List.replicate playerPath.length 0) (List.replicate enemyPath.length 0) := by
  have e1 : "Enemy wins!" ≠ "Player wins!" := by decide
  have e2 : "It\x27s a tie!" ≠ "Player wins!" := by decide
  have e3 : "It\x27s a tie!" ≠ "Enemy wins!" := by decide
  unfold raceOutcome
  simp only [List.length_replicate]
  rcases Nat.lt_trichotomy playerPath.length enemyPath.length with h | h | h
  · have h' : ¬ playerPath.length > enemyPath.length := by omega
    have h'' : playerPath.length ≠ enemyPath.length := by omega
    simp [h, h', h'', e1.symm, e2.symm]
  · have h' : ¬ playerPath.length > enemyPath.length := by omega
    have h'' : ¬ playerPath.length < enemyPath.length := by omega
    simp [h, e2, e3]
  · have h' : ¬ playerPath.length < enemyPath.length := by omega
    have h'' : playerPath.length ≠ enemyPath.length := by omega
    simp [h, h', h'', e1, e3.symm]

/-! ## Marker interpolation: paths of one index -/

theorem ratFloor_intCast (z : Int) : Rat.floor (z : ℚ) = z :=
  Int.floor_intCast (α := ℚ) z

theorem markerSegment_zero_segs (t : ℚ) : markerSegment 0 t = (0, 0) := by
  have h0 : Rat.floor (t * ((0 : Int) : ℚ)) = 0 := by
    rw [Int.cast_zero, mul_zero]; exact ratFloor_intCast 0
  unfold markerSegment
  simp only [h0]
  simp

/-- A path of one index: the second lookup `nodes[path[1]]` is `undefined`, so
`moveMarker` returns before it sets the position. -/
theorem moveMarker_single (nodes : List Node) (marker : Vec3) (i : Nat) (t : ℚ) :
    moveMarker nodes marker [i] t = marker := by
  have hb : nodeAt nodes [i] (0 + 1) = none := by
    simp [nodeAt, jsGet]
  have hl : (([i] : List Nat).length : Int) - 1 = 0 := by simp
  unfold moveMarker
  simp only [hl, markerSegment_zero_segs, hb]
  cases nodeAt nodes [i] 0 <;> rfl
theorem nodeAt_natCast (nodes : List Node) (path : List Nat) (j : Nat) :
    nodeAt nodes path (j : Int) = path[j]?.bind fun i => nodes[i]? := by
  have h : ¬ ((j : Int) < 0) := by omega
  simp [nodeAt, jsGet, h]

theorem nodeAt_valid {nodes : List Node} {path : List Nat} (hv : ∀ i ∈ path, i < nodes.length)
    {j : Nat} (hj : j < path.length) : ∃ a, (path[j]?.bind fun i => nodes[i]?) = some a := by
  have hi : path[j] < nodes.length := hv _ (List.getElem_mem hj)
  exact ⟨nodes[path[j]], by simp [List.getElem?_eq_getElem hj, List.getElem?_eq_getElem hi]⟩

/-- C8 (as the code behaves): for a path of a single node index and every progress
value `t`, `moveMarker` leaves the marker position as it was. -/
theorem moveMarker_single_unchanged (nodes : List Node) (marker : Vec3) (i : Nat) (t : ℚ) :
    moveMarker nodes marker [i] t = marker :=
  moveMarker_single nodes marker i t

/-- C8 fails as stated: with nodes `Start(0,0), A(1,0), End(2,0)`, the marker at the
origin and the one-index path `[1]`, `moveMarker` at `t = 1/2` leaves the marker at
`x = 0`, which is not the `x = 1` of node `A`. -/
theorem moveMarker_single_not_placed :
    scenarioNodes[1]? = some ⟨1, 0, .midNode⟩ ∧
      moveMarker scenarioNodes ⟨0, 0, 0⟩ [1] (1 / 2) = ⟨0, 0, 0⟩ ∧
      (moveMarker scenarioNodes ⟨0, 0, 0⟩ [1] (1 / 2)).x ≠ (1 : ℚ) := by
  rw [moveMarker_single]
  exact ⟨rfl, rfl, by norm_num⟩

/-! ## Paths: the invariant shared by the enemy walk and the player selection -/

theorem isWalk_start (edges : List Edge) : IsWalk edges [startIdx] startIdx :=
  ⟨rfl, rfl, List.nodup_singleton _, List.chain'_singleton _⟩

theorem IsWalk.push {edges : List Edge} {path : List Nat} {curr n : Nat}
    (h : IsWalk edges path curr) (hn : n ∈ nextSelectable edges curr path) :
    IsWalk edges (path ++ [n]) n := by
  have hne : path ≠ [] := by
    intro h0
    have := h.last
    rw [h0] at this
    exact absurd this (by simp)
  refine ⟨by simp, ?_, ?_, ?_⟩
  · rw [List.head?_append_of_ne_nil _ hne]; exact h.first
  · rw [List.nodup_append]
    refine ⟨h.nodup, List.nodup_singleton _, ?_⟩
    intro a ha hb
    rw [List.mem_singleton] at hb
    subst hb
    exact not_mem_of_mem_nextSelectable hn ha
  · rw [List.chain'_append]
    refine ⟨h.chain, List.chain'_singleton _, ?_⟩
    intro x hx y hy
    rw [h.last] at hx
    simp only [Option.mem_def, Option.some.injEq, List.head?_cons] at hx hy
    subst hx; subst hy
    exact joined_of_mem_nextSelectable hn

/-! ## Enemy path -/

/-- The loop of one attempt keeps the walk invariant and stops with at most 21 nodes. -/
theorem enemyLoop_spec (edges : List Edge) (endIdx : Nat) (rng : Nat → Draw) :
    ∀ (fuel : Nat) (path : List Nat) (curr k : Nat) (res : List Nat) (k' : Nat),
      IsWalk edges path curr → path.length ≤ 20 →
      enemyLoop edges endIdx rng fuel path curr k = some (res, k') →
      (∃ c, IsWalk edges res c) ∧ res.length ≤ 21 := by
  intro fuel
  induction fuel with
  | zero => intro path curr k res k' _ _ h; simp [enemyLoop] at h
  | succ fuel ih =>
    intro path curr k res k' hw hl h
    rw [enemyLoop] at h
    split at h
    · simp only [Option.some.injEq, Prod.mk.injEq] at h
      rw [← h.1]
      exact ⟨⟨curr, hw⟩, by omega⟩
    · dsimp only at h
      split at h
      · simp only [Option.some.injEq, Prod.mk.injEq] at h
        rw [← h.1]
        exact ⟨⟨curr, hw⟩, by omega⟩
      · rename_i hcurr hnexts
        have hmem := List.get_mem (nextSelectable edges curr path)
          (randFloor (rng k) (nextSelectable edges curr path).length)
          (Nat.div_lt_of_lt_mul (Nat.mul_lt_mul_of_pos_right (rng k).lt
            (Nat.pos_of_ne_zero hnexts)))
        have hw' := hw.push hmem
        split at h
        · simp only [Option.some.injEq, Prod.mk.injEq] at h
          rw [← h.1]
          refine ⟨⟨_, hw'⟩, ?_⟩
          simp only [List.length_append, List.length_singleton]
          omega
        · rename_i hlen
          exact ih _ _ _ _ _ hw' (by omega) h

theorem enemyLoop_isSome (edges : List Edge) (endIdx : Nat) (rng : Nat → Draw) :
    ∀ (fuel : Nat) (path : List Nat) (curr k : Nat), 1 ≤ fuel → 21 ≤ fuel + path.length →
      (enemyLoop edges endIdx rng fuel path curr k).isSome = true := by
  intro fuel
  induction fuel with
  | zero => intro path curr k h; omega
  | succ fuel ih =>
    intro path curr k _ hl
    rw [enemyLoop]
    split
    · rfl
    · dsimp only
      split
      · rfl
      · split
        · rfl
        · rename_i hlen
          simp only [List.length_append, List.length_singleton] at hlen
          apply ih
          · omega
          · simp only [List.length_append, List.length_singleton]; omega

/-- A returned path is a walk from `startIdx` standing on `endIdx`, of at most 21 nodes. -/
theorem enemyRandomPath_spec (edges : List Edge) (endIdx : Nat) (rng : Nat → Draw) :
    ∀ (fuel k : Nat) (path : List Nat), enemyRandomPath edges endIdx rng fuel k = some path →
      IsWalk edges path endIdx ∧ path.length ≤ 21 := by
  intro fuel
  induction fuel with
  | zero => intro k path h; simp [enemyRandomPath] at h
  | succ fuel ih =>
    intro k path h
    rw [enemyRandomPath] at h
    split at h
    · exact absurd h (by simp)
    · rename_i res k' hloop
      split at h
      · exact ih _ _ h
      · rename_i hlast
        simp only [Option.some.injEq] at h
        subst h
        obtain ⟨⟨c, hw⟩, hlen⟩ :=
          enemyLoop_spec edges endIdx rng 20 [startIdx] startIdx k res k'
            (isWalk_start edges) (by simp) hloop
        have hlast' : res.getLast? = some endIdx := not_not.1 hlast
        have hc : c = endIdx := by
          have := hw.last
          rw [hlast'] at this
          exact (Option.some.inj this).symm
        subst hc
        exact ⟨hw, hlen⟩

theorem IsWalk.ne_nil {edges : List Edge} {path : List Nat} {curr : Nat}
    (h : IsWalk edges path curr) : path ≠ [] := by
  intro h0
  have := h.last
  rw [h0] at this
  exact absurd this (by simp)

/-- The loop of one attempt never uses up its 20 units of fuel. -/
theorem enemyLoop_total (edges : List Edge) (endIdx : Nat) (rng : Nat → Draw) (k : Nat) :
    ∃ res k', enemyLoop edges endIdx rng 20 [startIdx] startIdx k = some (res, k') := by
  have h := enemyLoop_isSome edges endIdx rng 20 [startIdx] startIdx k (by omega) (by simp)
  obtain ⟨⟨res, k'⟩, hr⟩ := Option.isSome_iff_exists.1 h
  exact ⟨res, k', hr⟩

/-- C3: a path returned by `enemyRandomPath` is non-empty, begins with `startIdx`,
ends with `endIdx`, repeats no node index, and every two consecutive indices are
joined by an edge of the edge list. -/
theorem enemyRandomPath_valid (edges : List Edge) (endIdx : Nat) (rng : Nat → Draw)
    (fuel k : Nat) (path : List Nat)
    (h : enemyRandomPath edges endIdx rng fuel k = some path) :
    path ≠ [] ∧ path.head? = some startIdx ∧ path.getLast? = some endIdx ∧ path.Nodup ∧
      path.Chain' (Joined edges) := by
  obtain ⟨hw, -⟩ := enemyRandomPath_spec edges endIdx rng fuel k path h
  exact ⟨hw.ne_nil, hw.first, hw.last, hw.nodup, hw.chain⟩

theorem enemyRandomPath_valid_witness :
    enemyRandomPath scenarioEdges 2 (cycleSource 1) 3 1 = some [0, 2] ∧
      ([0, 2] ≠ [] ∧ [0, 2].head? = some startIdx ∧ [0, 2].getLast? = some 2 ∧ [0, 2].Nodup ∧
        [0, 2].Chain' (Joined scenarioEdges)) :=
  ⟨by decide, enemyRandomPath_valid scenarioEdges 2 (cycleSource 1) 3 1 [0, 2] (by decide)⟩

/-! ## End-to-end scenario -/

theorem enemyRandomPath_scenario (fuel k : Nat) :
    enemyRandomPath scenarioEdges 2 firstCandidate (fuel + 1) k = some [0, 1, 2] := by
  simp [enemyRandomPath, enemyLoop, nextSelectable, scenarioEdges, randFloor, firstCandidate,
    startIdx]

theorem enemyRandomPath_shortcutFirst (fuel k : Nat) :
    enemyRandomPath shortcutFirstEdges 2 firstCandidate (fuel + 1) k = some [0, 2] := by
  simp [enemyRandomPath, enemyLoop, nextSelectable, shortcutFirstEdges, randFloor, firstCandidate,
    startIdx]

/-- C7 fails as stated: with the edges in the order `(0,1), (1,2), (0,2)` the first
candidate at node `0` is node `1`; the planner returns `[0, 1, 2]`, never `[0, 2]`,
and the outcome against the player path `[0, 1, 2]` is a tie. -/
theorem scenario_listed_order_tie :
    endIdx scenarioNodes = 2 ∧
      nextSelectable scenarioEdges startIdx [startIdx] = [1, 2] ∧
      enemyRandomPath scenarioEdges (endIdx scenarioNodes) firstCandidate 1 0 = some [0, 1, 2] ∧
      (¬ ∃ fuel k, enemyRandomPath scenarioEdges (endIdx scenarioNodes) firstCandidate fuel k
        = some [0, 2]) ∧
      raceOutcome [0, 1, 2] [0, 1, 2] = "It\x27s a tie!" := by
  refine ⟨rfl, by decide, by decide, ?_, by decide⟩
  rintro ⟨fuel, k, h⟩
  cases fuel with
  | zero => simp [enemyRandomPath] at h
  | succ fuel =>
    have h2 : endIdx scenarioNodes = 2 := rfl
    rw [h2, enemyRandomPath_scenario] at h
    exact absurd h (by decide)

/-- C7 (as the code behaves): with the edge `(0,2)` in front of the edge list, the
player can pick `1` and then `2` for the path `[0, 1, 2]`, the planner that always
takes the first candidate returns `[0, 2]`, and the outcome is "Enemy wins!". -/
theorem scenario_shortcut_first_enemy_wins (fuel k : Nat) :
    (afterPicks shortcutFirstEdges (endIdx scenarioNodes) [some 1, some 2]).playerPath
        = [0, 1, 2] ∧
      enemyRandomPath shortcutFirstEdges (endIdx scenarioNodes) firstCandidate (fuel + 1) k
        = some [0, 2] ∧
      raceOutcome [0, 1, 2] [0, 2] = "Enemy wins!" :=
  ⟨by decide, enemyRandomPath_shortcutFirst fuel k, by decide⟩

/-! ## Player path selection: the path invariant -/

theorem playerInv_initial (edges : List Edge) (endIdx : Nat) :
    PlayerInv edges endIdx (initialState edges) :=
  ⟨startIdx, isWalk_start edges, fun _ _ hn => hn, fun h => absurd h (by simp [initialState])⟩

/-- Every pointer event keeps the invariant of the selection phase. -/
theorem playerInv_pointerdown {edges : List Edge} {endIdx : Nat} {s : PlayerState}
    (h : PlayerInv edges endIdx s) (hit : Option Nat) :
    PlayerInv edges endIdx (pointerdown edges endIdx s hit) := by
  obtain ⟨c, hw, hsel, hdone⟩ := h
  unfold pointerdown
  split
  · exact ⟨c, hw, hsel, hdone⟩
  · rename_i hch
    have hch' : s.choosing = true := by simpa using hch
    split
    · exact ⟨c, hw, hsel, hdone⟩
    · rename_i idx
      split
      · rename_i hmem
        have hmem' : idx ∈ s.selectable := by simpa using hmem
        have hw' := hw.push (hsel hch' idx hmem')
        split
        · rename_i hend
          exact ⟨idx, hw', fun hc => absurd hc (by simp), fun _ => hend⟩
        · exact ⟨idx, hw', fun _ _ hn => hn, fun hc => absurd (hch'.symm.trans hc) (by simp)⟩
      · exact ⟨c, hw, hsel, hdone⟩

theorem playerInv_foldl {edges : List Edge} {endIdx : Nat} (hits : List (Option Nat)) :
    ∀ s, PlayerInv edges endIdx s → PlayerInv edges endIdx (hits.foldl (pointerdown edges endIdx) s) := by
  induction hits with
  | nil => intro s h; exact h
  | cons hit hits ih => intro s h; exact ih _ (playerInv_pointerdown h hit)

/-- C10: after every finite sequence of pick events from the initial state,
`playerPath` begins with `startIdx`, repeats no node index, has every two consecutive
indices joined by an edge, and either `choosing` is still true or the last element
of `playerPath` is `endIdx`. -/
theorem afterPicks_path_invariant (edges : List Edge) (endIdx : Nat) (hits : List (Option Nat)) :
    (afterPicks edges endIdx hits).playerPath.head? = some startIdx ∧
      (afterPicks edges endIdx hits).playerPath.Nodup ∧
      (afterPicks edges endIdx hits).playerPath.Chain' (Joined edges) ∧
      ((afterPicks edges endIdx hits).choosing = true ∨
        (afterPicks edges endIdx hits).playerPath.getLast? = some endIdx) := by
  obtain ⟨c, hw, -, hdone⟩ := playerInv_foldl hits _ (playerInv_initial edges endIdx)
  refine ⟨hw.first, hw.nodup, hw.chain, ?_⟩
  cases hc : (afterPicks edges endIdx hits).choosing with
  | true => exact Or.inl rfl
  | false =>
    right
    have := hdone hc
    subst this
    exact hw.last

/-! ## Edge generation -/

theorem drawTargets_ne (rng : Nat → Draw) (n i : Nat) :
    ∀ (fuel : Nat) (targets : List Nat) (k : Nat) (ts : List Nat) (k' : Nat),
      (∀ j ∈ targets, j ≠ i) → drawTargets rng n i fuel targets k = some (ts, k') →
      ∀ j ∈ ts, j ≠ i := by
  intro fuel
  induction fuel with
  | zero =>
    intro targets k ts k' ht h
    rw [drawTargets] at h
    split at h
    · exact absurd h (by simp)
    · simp only [Option.some.injEq, Prod.mk.injEq] at h
      rw [← h.1]; exact ht
  | succ fuel ih =>
    intro targets k ts k' ht h
    rw [drawTargets] at h
    split at h
    · dsimp only at h
      split at h
      · rename_i hj
        refine ih _ _ _ _ ?_ h
        intro j hjm
        rcases List.mem_append.1 hjm with hjm | hjm
        · exact ht j hjm
        · rw [List.mem_singleton] at hjm
          rw [hjm]; exact hj.1
      · exact ih _ _ _ _ ht h
    · simp only [Option.some.injEq, Prod.mk.injEq] at h
      rw [← h.1]; exact ht

theorem hasEdge_eq_false {edges : List Edge} {i j : Nat} (h : hasEdge edges i j = false) :
    ∀ e ∈ edges, ¬ SameLink e (i, j) := by
  intro e he hs
  have : hasEdge edges i j = true := by
    unfold hasEdge
    rw [List.any_eq_true]
    refine ⟨e, he, ?_⟩
    rcases hs with ⟨h1, h2⟩ | ⟨h1, h2⟩
    · simp only [] at h1 h2
      simp [h1, h2]
    · simp only [] at h1 h2
      simp [h1, h2]
  rw [h] at this
  exact absurd this (by simp)

theorem edgesOK_push {edges : List Edge} {i j : Nat} (hok : EdgesOK edges) (hij : j ≠ i)
    (h : hasEdge edges i j = false) : EdgesOK (edges ++ [(i, j)]) := by
  refine ⟨?_, ?_⟩
  · intro e he
    rcases List.mem_append.1 he with he | he
    · exact hok.1 e he
    · rw [List.mem_singleton] at he
      rw [he]; exact fun h' => hij h'.symm
  · rw [List.pairwise_append]
    refine ⟨hok.2, List.pairwise_singleton _ _, ?_⟩
    intro a ha b hb
    rw [List.mem_singleton] at hb
    rw [hb]
    exact hasEdge_eq_false h a ha

/-- Adding the edges of node `i` to its targets, none of which is `i`, keeps the
edge list free of self-loops and of doubled pairs. -/
theorem addEdges_ok (i : Nat) :
    ∀ (targets : List Nat) (edges : List Edge), EdgesOK edges → (∀ j ∈ targets, j ≠ i) →
      EdgesOK (addEdges i targets edges) := by
  intro targets
  induction targets with
  | nil => intro edges hok _; exact hok
  | cons j targets ih =>
    intro edges hok ht
    unfold addEdges
    rw [List.foldl_cons]
    have ht' : ∀ j' ∈ targets, j' ≠ i := fun j' hj' => ht j' (List.mem_cons_of_mem _ hj')
    cases hh : hasEdge edges i j with
    | true =>
      simp only [if_true]
      exact ih edges hok ht'
    | false =>
      simp only [Bool.false_eq_true, if_false]
      exact ih _ (edgesOK_push hok (ht j (List.mem_cons_self _ _)) hh) ht'

theorem edgeLoop_ok (rng : Nat → Draw) (n fuel : Nat) :
    ∀ (remaining i : Nat) (edges : List Edge) (k : Nat) (res : List Edge),
      EdgesOK edges → edgeLoop rng n fuel remaining i edges k = some res → EdgesOK res := by
  intro remaining
  induction remaining with
  | zero =>
    intro i edges k res hok h
    simp only [edgeLoop, Option.some.injEq] at h
    rw [← h]; exact hok
  | succ remaining ih =>
    intro i edges k res hok h
    rw [edgeLoop] at h
    split at h
    · exact absurd h (by simp)
    · rename_i targets k' hd
      exact ih _ _ _ _
        (addEdges_ok i targets edges hok
          (drawTargets_ne rng n i fuel [] k targets k' (fun _ hj => absurd hj (by simp)) hd)) h

/-- C1: whenever the edge generation loop finishes, the edge list has no self-loop
and no two entries that join the same unordered pair of node indices. -/
theorem generateEdges_no_loop_no_duplicate (rng : Nat → Draw) (n fuel : Nat)
    (edges : List Edge) (h : generateEdges rng n fuel = some edges) :
    (∀ e ∈ edges, e.1 ≠ e.2) ∧ edges.Pairwise fun e f => ¬ SameLink e f :=
  edgeLoop_ok rng n fuel n 0 [] 0 edges ⟨fun _ he => absurd he (by simp), List.Pairwise.nil⟩ h

theorem generateEdges_no_loop_no_duplicate_witness :
    generateEdges (cycleSource 9) (POINT_COUNT + 2) 20 = some cycleEdges ∧
      ((∀ e ∈ cycleEdges, e.1 ≠ e.2) ∧ cycleEdges.Pairwise fun e f => ¬ SameLink e f) :=
  ⟨by decide, generateEdges_no_loop_no_duplicate (cycleSource 9) (POINT_COUNT + 2) 20 cycleEdges
    (by decide)⟩

/-! ## Enemy path: length on the node array of the program -/

/-- Every node of a chain of joined indices that begins below `n` is below `n`,
when both ends of every edge are. -/
theorem chain_joined_lt {edges : List Edge} {n : Nat}
    (hwf : ∀ e ∈ edges, e.1 < n ∧ e.2 < n) :
    ∀ (l : List Nat), l.Chain' (Joined edges) → (∀ x ∈ l.head?, x < n) → ∀ x ∈ l, x < n := by
  intro l
  induction l with
  | nil => intro _ _ x hx; exact absurd hx (by simp)
  | cons a t ih =>
    intro hc hh x hx
    have ha : a < n := hh a (by simp)
    rcases List.mem_cons.1 hx with hxa | hxt
    · rw [hxa]; exact ha
    · refine ih (List.Chain'.tail hc) ?_ x hxt
      intro y hy
      cases t with
      | nil => simp at hy
      | cons b t' =>
        have hb : y = b := by simpa using hy.symm
        have hj : Joined edges a b := (List.chain'_cons.1 hc).1
        rw [hb]
        rcases hj with hj | hj
        · exact (hwf _ hj).2
        · exact (hwf _ hj).1

/-- A list of distinct indices below `n` has at most `n` entries. -/
theorem nodup_length_le {l : List Nat} {n : Nat} (hnd : l.Nodup) (hlt : ∀ x ∈ l, x < n) :
    l.length ≤ n := by
  have hsub : l.toFinset ⊆ Finset.range n := by
    intro x hx
    rw [List.mem_toFinset] at hx
    exact Finset.mem_range.2 (hlt x hx)
  have hcard := Finset.card_le_card hsub
  rw [List.toFinset_card_of_nodup hnd, Finset.card_range] at hcard
  exact hcard

/-- A walk over edges between indices below `n` visits at most `n` nodes. -/
theorem IsWalk.length_le {edges : List Edge} {path : List Nat} {curr n : Nat}
    (h : IsWalk edges path curr) (hn : 0 < n) (hwf : ∀ e ∈ edges, e.1 < n ∧ e.2 < n) :
    path.length ≤ n := by
  refine nodup_length_le h.nodup (chain_joined_lt hwf path h.chain ?_)
  intro x hx
  rw [h.first] at hx
  have : x = startIdx := by simpa using hx.symm
  rw [this]; exact hn

/-- C9: on the node array of the program (`POINT_COUNT + 2` nodes, every edge between
two of its indices) no attempt of `enemyRandomPath` has a path of more than 20 nodes,
and every path that `enemyRandomPath` returns has at most 20 nodes. -/
theorem enemyRandomPath_length_le_20 (nodes : List Node) (edges : List Edge)
    (rng : Nat → Draw) (fuel k : Nat) (path : List Nat)
    (hn : nodes.length = POINT_COUNT + 2)
    (hwf : ∀ e ∈ edges, e.1 < nodes.length ∧ e.2 < nodes.length)
    (h : enemyRandomPath edges (endIdx nodes) rng fuel k = some path) :
    (∀ k0 res k1, enemyLoop edges (endIdx nodes) rng 20 [startIdx] startIdx k0 = some (res, k1) →
        res.length ≤ 20) ∧
      path.length ≤ 20 := by
  have hpos : 0 < nodes.length := by rw [hn]; exact Nat.succ_pos _
  have h10 : nodes.length ≤ 20 := by rw [hn]; decide
  refine ⟨?_, ?_⟩
  · intro k0 res k1 hloop
    obtain ⟨⟨c, hw⟩, -⟩ :=
      enemyLoop_spec edges (endIdx nodes) rng 20 [startIdx] startIdx k0 res k1
        (isWalk_start edges) (by simp) hloop
    exact le_trans (hw.length_le hpos hwf) h10
  · obtain ⟨hw, -⟩ := enemyRandomPath_spec edges (endIdx nodes) rng fuel k path h
    exact le_trans (hw.length_le hpos hwf) h10

theorem enemyRandomPath_length_le_20_witness :
    roundNodes.length = POINT_COUNT + 2 ∧
      (∀ e ∈ cycleEdges, e.1 < roundNodes.length ∧ e.2 < roundNodes.length) ∧
      enemyRandomPath cycleEdges (endIdx roundNodes) (fun k => roundSource (k + 40)) 5 0
        = some [0, 1, 5, 7, 3, 4, 6, 8, 9] ∧
      ((∀ k0 res k1,
          enemyLoop cycleEdges (endIdx roundNodes) (fun k => roundSource (k + 40)) 20
            [startIdx] startIdx k0 = some (res, k1) → res.length ≤ 20) ∧
        [0, 1, 5, 7, 3, 4, 6, 8, 9].length ≤ 20) :=
  ⟨by decide, by decide, by decide,
    enemyRandomPath_length_le_20 roundNodes cycleEdges (fun k => roundSource (k + 40)) 5 0
      [0, 1, 5, 7, 3, 4, 6, 8, 9] (by decide) (by decide) (by decide)⟩

/-! ## Properties of the double precision arithmetic -/

theorem roundDouble_zero : roundDouble 0 = 0 := by
  simp [roundDouble]

theorem bitLenAux_le : ∀ (fuel n m : Nat), n < 2 ^ m → bitLenAux fuel n ≤ m := by
  intro fuel
  induction fuel with
  | zero => intro n m _; simp [bitLenAux]
  | succ fuel ih =>
    intro n m h
    rw [bitLenAux]
    split
    · exact Nat.zero_le _
    · rename_i hn
      cases m with
      | zero => simp at h; exact absurd h hn
      | succ m =>
        have : n / 2 < 2 ^ m := by
          rw [Nat.div_lt_iff_lt_mul (by decide)]
          rw [pow_succ] at h; exact h
        exact Nat.succ_le_succ (ih _ _ this)

theorem pow2_nonpos {e : Int} (he : e ≤ 0) : pow2 e = 1 / ((2 ^ (-e).toNat : Nat) : ℚ) := by
  unfold pow2
  split
  · have h0 : e = 0 := le_antisymm he (by assumption)
    subst h0
    simp
  · rfl

theorem roundHalfEven_natCast (n : Nat) : roundHalfEven (n : ℚ) = n := by
  have hf : Rat.floor (n : ℚ) = (n : Int) := by
    have := ratFloor_intCast (n : Int)
    simpa using this
  unfold roundHalfEven
  simp only [hf]
  simp

theorem log2Floor_natCast_le {n m : Nat} (h : n < 2 ^ m) :
    log2Floor (n : ℚ) ≤ (m : Int) - 1 := by
  have hb : bitLen n ≤ m := bitLenAux_le n n m h
  have h1 : bitLen 1 = 1 := by decide
  unfold log2Floor
  simp only [Rat.num_natCast, Int.natAbs_ofNat, Rat.den_natCast, h1]
  split <;> omega

/-- Every natural number below `2 ^ 53` is a double. -/
theorem roundDouble_natCast {n : Nat} (h : n < 2 ^ 53) : roundDouble (n : ℚ) = n := by
  by_cases h0 : n = 0
  · subst h0; simpa using roundDouble_zero
  · have hq : (n : ℚ) ≠ 0 := by exact_mod_cast h0
    have hl := log2Floor_natCast_le h
    have he : max (log2Floor (n : ℚ) - 52) (-1074) ≤ 0 := by
      apply max_le <;> omega
    unfold roundDouble
    rw [if_neg hq]
    simp only
    rw [pow2_nonpos he]
    generalize (-(max (log2Floor (n : ℚ) - 52) (-1074))).toNat = j
    have hj : ((2 ^ j : Nat) : ℚ) ≠ 0 := by positivity
    have hdiv : (n : ℚ) / (1 / ((2 ^ j : Nat) : ℚ)) = ((n * 2 ^ j : Nat) : ℚ) := by
      push_cast; field_simp
    rw [hdiv, roundHalfEven_natCast]
    push_cast
    field_simp

/-! ## Marker interpolation in doubles -/

theorem markerSegment64_zero_segs (t : ℚ) : markerSegment64 0 t = (0, 0) := by
  have hu : fmul t ((0 : Int) : ℚ) = 0 := by
    unfold fmul; rw [Int.cast_zero, mul_zero]; exact roundDouble_zero
  have h0 : Rat.floor (0 : ℚ) = 0 := by simpa using ratFloor_intCast 0
  unfold markerSegment64
  simp only [hu, h0]
  simp

theorem markerSegment64_start {n : Int} (hn : 1 ≤ n) : markerSegment64 n 0 = (0, 0) := by
  have hu : fmul 0 (n : ℚ) = 0 := by
    unfold fmul; rw [zero_mul]; exact roundDouble_zero
  have h0 : Rat.floor (0 : ℚ) = 0 := by simpa using ratFloor_intCast 0
  have hf : fsub 0 ((0 : Int) : ℚ) = 0 := by
    unfold fsub; rw [Int.cast_zero, sub_zero]; exact roundDouble_zero
  have h1 : ¬ (0 ≥ n) := by omega
  unfold markerSegment64
  simp only [hu, h0, hf, h1, if_false]
  simp

theorem markerSegment64_finish {m : Nat} (hm : 1 ≤ m) (hlt : m < 2 ^ 53) :
    markerSegment64 (m : Int) 1 = ((m : Int) - 1, 1) := by
  have hu : fmul 1 (((m : Int)) : ℚ) = (m : ℚ) := by
    unfold fmul; rw [one_mul, Int.cast_natCast]; exact roundDouble_natCast hlt
  have h0 : Rat.floor (m : ℚ) = (m : Int) := by
    simpa using ratFloor_intCast (m : Int)
  have h1 : ¬ ((m : Int) - 1 < 0) := by omega
  unfold markerSegment64
  simp only [hu, h0, ge_iff_le, le_refl, if_true, h1, if_false]

/-- In doubles too, a path of one index leaves the marker where it was. -/
theorem moveMarker64_single (nodes : List Node) (marker : Vec3) (i : Nat) (t : ℚ) :
    moveMarker64 nodes marker [i] t = marker := by
  have hb : nodeAt nodes [i] (0 + 1) = none := by
    simp [nodeAt, jsGet]
  have hl : (([i] : List Nat).length : Int) - 1 = 0 := by simp
  unfold moveMarker64
  simp only [hl, markerSegment64_zero_segs, hb]
  cases nodeAt nodes [i] 0 <;> rfl

/-- At `frac = 0` the interpolation `a + (b - a) * frac` in doubles returns `a`. -/
theorem lerp64_zero {a : ℚ} (b : ℚ) (ha : IsDouble a) : fadd a (fmul (fsub b a) 0) = a := by
  unfold fadd fmul
  rw [mul_zero, roundDouble_zero, add_zero]
  exact ha

/-- At `frac = 1` the interpolation `a + (b - a) * frac` in doubles returns `b`
when the difference `b - a` is a double. -/
theorem lerp64_one {a b : ℚ} (hb : IsDouble b) (hd : IsDouble (b - a)) :
    fadd a (fmul (fsub b a) 1) = b := by
  unfold fadd fmul fsub
  rw [mul_one]
  have hd' : roundDouble (b - a) = b - a := hd
  rw [hd', hd', add_sub_cancel]
  exact hb

/-- C5 (as the code behaves): on a path of at least two valid indices of nodes with
coordinates on the map, `moveMarker` in doubles with `t = 0` puts the marker at the
`(x, y)` of the first node of the path; with `t = 1` it puts it at
`p + (b - p) * 1` computed in doubles from the last node `b` and the node `p` before
it, which is the `(x, y)` of the last node in each coordinate whose difference
`b - p` is a double. -/
theorem moveMarker64_endpoints (nodes : List Node) (marker : Vec3) (path : List Nat)
    (h2 : 2 ≤ path.length) (hlen : path.length ≤ 2 ^ 32)
    (hv : ∀ i ∈ path, i < nodes.length)
    (hc : ∀ nd ∈ nodes, IsCoord nd.x ∧ IsCoord nd.y) :
    ∃ a p b, (path.head?.bind fun i => nodes[i]?) = some a ∧
      (path[path.length - 2]?.bind fun i => nodes[i]?) = some p ∧
      (path.getLast?.bind fun i => nodes[i]?) = some b ∧
      moveMarker64 nodes marker path 0 = { x := a.x, y := roundDouble (11 / 10), z := a.y } ∧
      moveMarker64 nodes marker path 1 =
        { x := fadd p.x (fmul (fsub b.x p.x) 1)
          y := roundDouble (11 / 10)
          z := fadd p.y (fmul (fsub b.y p.y) 1) } ∧
      (IsDouble (b.x - p.x) → (moveMarker64 nodes marker path 1).x = b.x) ∧
      (IsDouble (b.y - p.y) → (moveMarker64 nodes marker path 1).z = b.y) := by
  have hn : (1 : Int) ≤ (path.length : Int) - 1 := by omega
  have hcast : (path.length : Int) - 1 = ((path.length - 1 : Nat) : Int) := by omega
  have hm1 : 1 ≤ path.length - 1 := by omega
  have hm2 : path.length - 1 < 2 ^ 53 := by
    have : (2 : Nat) ^ 32 < 2 ^ 53 := by decide
    omega
  obtain ⟨a, ha⟩ := nodeAt_valid hv (show 0 < path.length by omega)
  obtain ⟨a', ha'⟩ := nodeAt_valid hv (show 1 < path.length by omega)
  obtain ⟨p, hp⟩ := nodeAt_valid hv (show path.length - 2 < path.length by omega)
  obtain ⟨b, hb⟩ := nodeAt_valid hv (show path.length - 1 < path.length by omega)
  have i0 : nodeAt nodes path 0 = some a := by
    rw [← ha]; exact nodeAt_natCast nodes path 0
  have i1 : nodeAt nodes path (0 + 1) = some a' := by
    rw [← ha']; exact nodeAt_natCast nodes path 1
  have i2 : nodeAt nodes path (((path.length - 1 : Nat) : Int) - 1) = some p := by
    rw [← hp, ← nodeAt_natCast]; congr 1; omega
  have i3 : nodeAt nodes path (((path.length - 1 : Nat) : Int) - 1 + 1) = some b := by
    rw [← hb, ← nodeAt_natCast]; congr 1; omega
  have mem_of : ∀ {j : Nat} {nd : Node}, (path[j]?.bind fun i => nodes[i]?) = some nd →
      nd ∈ nodes := by
    intro j nd h
    cases hj : path[j]? with
    | none => rw [hj] at h; simp at h
    | some i =>
      rw [hj] at h
      exact List.getElem?_mem h
  have hac := hc a (mem_of ha)
  have hbc := hc b (mem_of hb)
  have e0 : moveMarker64 nodes marker path 0
      = { x := a.x, y := roundDouble (11 / 10), z := a.y } := by
    unfold moveMarker64
    simp only [markerSegment64_start hn, i0, i1]
    rw [lerp64_zero a'.x hac.1.1, lerp64_zero a'.y hac.2.1]
  have e1 : moveMarker64 nodes marker path 1 =
      { x := fadd p.x (fmul (fsub b.x p.x) 1)
        y := roundDouble (11 / 10)
        z := fadd p.y (fmul (fsub b.y p.y) 1) } := by
    unfold moveMarker64
    simp only [hcast, markerSegment64_finish hm1 hm2, i2, i3]
  refine ⟨a, p, b, ?_, hp, ?_, e0, e1, ?_, ?_⟩
  · rw [List.head?_eq_getElem?]; exact ha
  · rw [List.getLast?_eq_getElem?]; exact hb
  · intro hd; rw [e1]; exact lerp64_one hbc.1.1 hd
  · intro hd; rw [e1]; exact lerp64_one hbc.2.1 hd

/-- The model agrees with the doubles of the literals `0.1`, `0.2` and `1.1`, rounds
the tie `2 ^ 53 + 1` to the even neighbour, and rounds to a multiple of
`2 ^ (-1074)` below the normal range. -/
theorem roundDouble_examples :
    roundDouble (1 / 10) = 3602879701896397 / 36028797018963968 ∧
      roundDouble (1 / 5) = 3602879701896397 / 18014398509481984 ∧
      roundDouble (11 / 10) = 2476979795053773 / 2251799813685248 ∧
      roundDouble 9007199254740993 = 9007199254740992 ∧
      roundDouble 9007199254740995 = 9007199254740996 ∧
      roundDouble (1 / 3 * pow2 (-1060)) = 5461 * pow2 (-1074) := by
  decide!

/-- C5 fails as stated in the arithmetic of the code.  In the run `roundSource` the
program has 10 nodes and the edges `cycleEdges`, the player picks node 1 and then
the end node 9, and `moveMarker` in doubles with `t = 1` puts the marker at
`z = -3`, while the `y` of the end node is `-3.0000000000000004`. -/
theorem moveMarker64_misses_end :
    roundNodes.length = POINT_COUNT + 2 ∧
      generateEdges (fun k => roundSource (k + 19)) roundNodes.length 20 = some cycleEdges ∧
      (afterPicks cycleEdges (endIdx roundNodes) [some 1, some 9]).playerPath = [0, 1, 9] ∧
      (afterPicks cycleEdges (endIdx roundNodes) [some 1, some 9]).choosing = false ∧
      roundNodes[9]? = some ⟨5, -6755399441055745 / 2251799813685248, .endNode⟩ ∧
      (moveMarker64 roundNodes ⟨0, 0, 0⟩ [0, 1, 9] 1).z = -3 ∧
      (moveMarker64 roundNodes ⟨0, 0, 0⟩ [0, 1, 9] 1).z
        ≠ (-6755399441055745 / 2251799813685248 : ℚ) := by
  refine ⟨by decide, by decide, by decide, by decide, by decide!, by decide!, by decide!⟩

theorem moveMarker64_endpoints_witness :
    2 ≤ ([0, 1, 9] : List Nat).length ∧ ([0, 1, 9] : List Nat).length ≤ 2 ^ 32 ∧
      (∀ i ∈ ([0, 1, 9] : List Nat), i < roundNodes.length) ∧
      (∀ nd ∈ roundNodes, IsCoord nd.x ∧ IsCoord nd.y) ∧
      ∃ a p b, (([0, 1, 9] : List Nat).head?.bind fun i => roundNodes[i]?) = some a ∧
        ((([0, 1, 9] : List Nat)[([0, 1, 9] : List Nat).length - 2]?).bind
          fun i => roundNodes[i]?) = some p ∧
        (([0, 1, 9] : List Nat).getLast?.bind fun i => roundNodes[i]?) = some b ∧
        moveMarker64 roundNodes ⟨0, 0, 0⟩ [0, 1, 9] 0
          = { x := a.x, y := roundDouble (11 / 10), z := a.y } ∧
        moveMarker64 roundNodes ⟨0, 0, 0⟩ [0, 1, 9] 1 =
          { x := fadd p.x (fmul (fsub b.x p.x) 1)
            y := roundDouble (11 / 10)
            z := fadd p.y (fmul (fsub b.y p.y) 1) } ∧
        (IsDouble (b.x - p.x) → (moveMarker64 roundNodes ⟨0, 0, 0⟩ [0, 1, 9] 1).x = b.x) ∧
        (IsDouble (b.y - p.y) → (moveMarker64 roundNodes ⟨0, 0, 0⟩ [0, 1, 9] 1).z = b.y) :=
  ⟨by decide, by decide, by decide, by decide!,
    moveMarker64_endpoints roundNodes ⟨0, 0, 0⟩ [0, 1, 9] (by decide) (by decide) (by decide)
      (by decide!)⟩

/-! ## Edge generation: both ends of every edge are node indices -/

theorem drawTargets_lt (rng : Nat → Draw) {n : Nat} (hn : 0 < n) (i : Nat) :
    ∀ (fuel : Nat) (targets : List Nat) (k : Nat) (ts : List Nat) (k' : Nat),
      (∀ j ∈ targets, j < n) → drawTargets rng n i fuel targets k = some (ts, k') →
      ∀ j ∈ ts, j < n := by
  intro fuel
  induction fuel with
  | zero =>
    intro targets k ts k' ht h
    rw [drawTargets] at h
    split at h
    · exact absurd h (by simp)
    · simp only [Option.some.injEq, Prod.mk.injEq] at h
      rw [← h.1]; exact ht
  | succ fuel ih =>
    intro targets k ts k' ht h
    rw [drawTargets] at h
    split at h
    · dsimp only at h
      split at h
      · refine ih _ _ _ _ ?_ h
        intro j hjm
        rcases List.mem_append.1 hjm with hjm | hjm
        · exact ht j hjm
        · rw [List.mem_singleton] at hjm
          rw [hjm]; exact randFloor_lt _ hn
      · exact ih _ _ _ _ ht h
    · simp only [Option.some.injEq, Prod.mk.injEq] at h
      rw [← h.1]; exact ht

theorem addEdges_lt {n i : Nat} (hi : i < n) :
    ∀ (targets : List Nat) (edges : List Edge), (∀ e ∈ edges, e.1 < n ∧ e.2 < n) →
      (∀ j ∈ targets, j < n) → ∀ e ∈ addEdges i targets edges, e.1 < n ∧ e.2 < n := by
  intro targets
  induction targets with
  | nil => intro edges he _; exact he
  | cons j targets ih =>
    intro edges he ht
    unfold addEdges
    rw [List.foldl_cons]
    have ht' : ∀ j' ∈ targets, j' < n := fun j' hj' => ht j' (List.mem_cons_of_mem _ hj')
    cases hh : hasEdge edges i j with
    | true =>
      simp only [if_true]
      exact ih edges he ht'
    | false =>
      simp only [Bool.false_eq_true, if_false]
      refine ih _ ?_ ht'
      intro e hmem
      rcases List.mem_append.1 hmem with hmem | hmem
      · exact he e hmem
      · rw [List.mem_singleton] at hmem
        rw [hmem]; exact ⟨hi, ht j (List.mem_cons_self _ _)⟩

theorem edgeLoop_lt (rng : Nat → Draw) (n fuel : Nat) :
    ∀ (remaining i : Nat) (edges : List Edge) (k : Nat) (res : List Edge),
      i + remaining = n → (∀ e ∈ edges, e.1 < n ∧ e.2 < n) →
      edgeLoop rng n fuel remaining i edges k = some res → ∀ e ∈ res, e.1 < n ∧ e.2 < n := by
  intro remaining
  induction remaining with
  | zero =>
    intro i edges k res _ he h
    simp only [edgeLoop, Option.some.injEq] at h
    rw [← h]; exact he
  | succ remaining ih =>
    intro i edges k res hin he h
    rw [edgeLoop] at h
    split at h
    · exact absurd h (by simp)
    · rename_i targets k' hd
      have hi : i < n := by omega
      refine ih _ _ _ _ (by omega) ?_ h
      exact addEdges_lt hi targets edges he
        (drawTargets_lt rng (by omega) i fuel [] k targets k' (fun _ hj => absurd hj (by simp)) hd)

/-- Both ends of every generated edge are indices of the node array. -/
theorem generateEdges_index_lt (rng : Nat → Draw) (n fuel : Nat) (edges : List Edge)
    (h : generateEdges rng n fuel = some edges) : ∀ e ∈ edges, e.1 < n ∧ e.2 < n :=
  edgeLoop_lt rng n fuel n 0 [] 0 edges (Nat.zero_add n) (fun _ he => absurd he (by simp)) h

/-- The node array has `POINT_COUNT + 2` entries. -/
theorem generateNodes_length (rng : Nat → Draw) (k : Nat) :
    (generateNodes rng k).length = POINT_COUNT + 2 := by
  simp [generateNodes]

end TravelinMan
